import Mathlib

/-!
Shallow embedding of the FBGrabber download-manager application
(`app/utils.py`, `app/models.py`, `app/settings.py`, `app/downloader.py`,
`app/main.py`, `app/ui/main_window.py`) together with proofs about the
behaviour its specification describes.

Conventions of the embedding:
* Python strings are modelled as `String` / `List Char`; the regular
  expressions used by `utils.py` are specialised to the concrete patterns
  appearing in the source and implemented as executable scanners with the
  same leftmost/greedy semantics (for these particular patterns the
  character classes of adjacent regex parts are disjoint, so greedy
  maximal-munch scanning coincides with backtracking semantics).
* Python floats are modelled as rationals (`ℚ`); float *formatting* is
  modelled with exact round-half-to-even on rationals.
* `re.sub` scanning loops are modelled with an explicit fuel argument set
  to the input length (each replacement consumes at least one character,
  so this fuel is always sufficient); the unbounded `while` loop of
  `ensure_unique_path` likewise takes an explicit fuel bound.
* The filesystem is modelled as a boolean predicate on path strings, and
  the Qt widget table as a list of row records.
-/

/-! ## Python character / string primitives -/

/-- Python `str` whitespace characters (`str.strip()`, `\s` in `re`),
restricted to the ASCII whitespace set. -/
def pyIsSpace (c : Char) : Bool :=
  c = ' ' || c = '\t' || c = '\n' || c = '\r' || c = '\x0b' || c = '\x0c'

/-- Lower-case a character, ASCII range only (models `str.lower` on the
inputs relevant here). -/
def pyToLower (c : Char) : Char :=
  if 'A' ≤ c && c ≤ 'Z' then Char.ofNat (c.toNat + 32) else c

/-- Models `s.lower()` character by character. -/
def pyLower (l : List Char) : List Char := l.map pyToLower

/-- Strip a trailing run of characters satisfying `p` (used for Python
`str.rstrip(chars)` and the `...$` anchored substitutions). -/
def rstripP (p : Char → Bool) : List Char → List Char
  | [] => []
  | c :: cs =>
    match rstripP p cs with
    | [] => if p c then [] else [c]
    | d :: t => c :: d :: t

/-- Python `s.strip()`: drop whitespace from both ends. -/
def pyStripWS (l : List Char) : List Char :=
  rstripP pyIsSpace (l.dropWhile pyIsSpace)

/-- Parse a decimal integer the way `int(str)` does on plain numerals:
optional surrounding whitespace, optional sign, at least one digit.
(Underscore digit grouping, accepted by CPython, is not modelled; no
input in this code base produces it.) -/
def pyParseDigits (l : List Char) : Option Int :=
  if l ≠ [] && l.all Char.isDigit then
    some (Int.ofNat (l.foldl (fun a c => a * 10 + (c.toNat - '0'.toNat)) 0))
  else none

/-- Models `int(s)` for a string, returning `none` where Python raises
`ValueError`. -/
def pyInt? (l : List Char) : Option Int :=
  match pyStripWS l with
  | '-' :: t => (pyParseDigits t).map (fun n => -n)
  | '+' :: t => pyParseDigits t
  | t => pyParseDigits t

/-- Models `int(f)` on a float (here: a rational): truncation toward zero. -/
def pyTrunc (q : ℚ) : Int := q.num.tdiv q.den

/-- Round-half-to-even on a rational, the rounding used by Python float
formatting `f"{x:.0f}"` (float binary rounding artefacts are abstracted
away: we round the exact value). -/
def roundHalfEven (q : ℚ) : Int :=
  let f := ⌊q⌋
  let r := q - f
  if r < 1/2 then f
  else if 1/2 < r then f + 1
  else if f % 2 = 0 then f else f + 1

/-- Models `f"{q:.0f}"`. -/
def pyFormatF0 (q : ℚ) : String := toString (roundHalfEven q)

/-- Models `f"{q:.1f}"`. -/
def pyFormatF1 (q : ℚ) : String :=
  let n := roundHalfEven (q * 10)
  toString (n / 10) ++ "." ++ toString ((n % 10).natAbs)

/-- Models `f"{n:02d}"`. -/
def pyFormat02d (n : Nat) : String :=
  if n < 10 then "0" ++ toString n else toString n

/-! ## `utils.py`: `clean_facebook_title` -/

/-- Characters of the regex class `[\d.,]` (the count body of the
Facebook-metric pattern). -/
def isCountChar (c : Char) : Bool := c.isDigit || c = '.' || c = ','

/-- The optional `[KkMm]` magnitude suffix. -/
def isKM (c : Char) : Bool := c = 'K' || c = 'k' || c = 'M' || c = 'm'

/-- The separator class `[·|]`. -/
def isSepChar (c : Char) : Bool := c = '·' || c = '|'

/-- The class `[\s·|]` (separators to trim at the ends of the title). -/
def isSpaceOrSep (c : Char) : Bool := pyIsSpace c || isSepChar c

/-- Case-insensitive literal word match: consumes `w` (given lower-case)
from the front of `l`, returning the rest. -/
def matchWordCI (w : List Char) (l : List Char) : Option (List Char) :=
  match w, l with
  | [], rest => some rest
  | _ :: _, [] => none
  | c :: w, d :: l => if pyToLower d = c then matchWordCI w l else none

/-- The unit alternatives `(?:views|reactions|comments|shares|likes)`. -/
def unitWords : List (List Char) :=
  ["views".toList, "reactions".toList, "comments".toList,
   "shares".toList, "likes".toList]

/-- Match one of the unit words case-insensitively at the front of `l`. -/
def matchUnit (l : List Char) : Option (List Char) :=
  unitWords.findSome? (fun w => matchWordCI w l)

/-- Matcher for `\d[\d.,]*[KkMm]?\s*(?:views|reactions|comments|shares|likes)`
(case-insensitive) anchored at the front of `l`; returns the remainder
after the match.  The character classes of consecutive parts are disjoint,
so greedy scanning needs no backtracking. -/
def matchMetric : List Char → Option (List Char)
  | [] => none
  | c :: cs =>
    if c.isDigit then
      let r1 := cs.dropWhile isCountChar
      let r2 := match r1 with
        | k :: t => if isKM k then t else r1
        | [] => r1
      matchUnit (r2.dropWhile pyIsSpace)
    else none

/-- Models `re.sub(metric-pattern, "", ·)`: scan left to right, deleting matches.
`fuel` bounds the recursion; every match consumes at least one character,
so `fuel = l.length` always suffices. -/
def gsubMetricGo : Nat → List Char → List Char
  | _, [] => []
  | 0, l => l
  | fuel + 1, c :: cs =>
    match matchMetric (c :: cs) with
    | some rest => gsubMetricGo fuel rest
    | none => c :: gsubMetricGo fuel cs

/-- Models `re.sub` of the metric pattern with the empty replacement. -/
def gsubMetric (l : List Char) : List Char := gsubMetricGo l.length l

/-- Matcher for `\s*[·|]\s*[·|]\s*` anchored at the front of `l`. -/
def matchSep2 (l : List Char) : Option (List Char) :=
  match l.dropWhile pyIsSpace with
  | c :: r2 =>
    if isSepChar c then
      match r2.dropWhile pyIsSpace with
      | d :: r4 =>
        if isSepChar d then some (r4.dropWhile pyIsSpace) else none
      | [] => none
    else none
  | [] => none

/-- Models `re.sub(r"\s*[·|]\s*[·|]\s*", " | ", ·)`, fuelled like `gsubMetricGo`. -/
def gsubSep2Go : Nat → List Char → List Char
  | _, [] => []
  | 0, l => l
  | fuel + 1, c :: cs =>
    match matchSep2 (c :: cs) with
    | some rest => ' ' :: '|' :: ' ' :: gsubSep2Go fuel rest
    | none => c :: gsubSep2Go fuel cs

/-- Models `re.sub` of the doubled-separator pattern with `" | "`. -/
def gsubSep2 (l : List Char) : List Char := gsubSep2Go l.length l

/-- The cleaning pipeline of `clean_facebook_title` before the final
`cleaned.strip() or title` step: strip metric substrings, collapse doubled
separators to `" | "`, then delete the leading and trailing
separator/whitespace runs. -/
def cleanedCore (title : String) : List Char :=
  let cleaned0 := gsubMetric title.toList
  let cleaned1 := gsubSep2 cleaned0
  let cleaned2 := cleaned1.dropWhile isSpaceOrSep
  rstripP isSpaceOrSep cleaned2

/-- Models `utils.clean_facebook_title`. -/
def clean_facebook_title (title : String) : String :=
  if title = "" then title
  else
    let final := pyStripWS (cleanedCore title)
    if final = [] then title else String.mk final

/-! ## `utils.py`: `sanitize_filename` -/

/-- A character matching the *complement* of `INVALID_CHARS`, i.e. one of
`[\w\-\.\(\) \[\]]` (with `\w` read as ASCII alphanumeric or underscore). -/
def validChar (c : Char) : Bool :=
  c.isAlphanum || c = '_' || c = '-' || c = '.' || c = '(' || c = ')' ||
  c = ' ' || c = '[' || c = ']'

/-- Membership in the regex class `[ _]`. -/
def isSpaceOrUnderscore (c : Char) : Bool := c = ' ' || c = '_'

/-- Models `re.sub(runClass+, r, ·)`: replace each maximal run of characters
satisfying `p` by the single character `r`.  The boolean argument records
whether the scanner is currently inside a run that has already emitted its
replacement. -/
def subRunsGo (p : Char → Bool) (r : Char) : Bool → List Char → List Char
  | _, [] => []
  | inRun, c :: cs =>
    if p c then
      if inRun then subRunsGo p r true cs
      else r :: subRunsGo p r true cs
    else c :: subRunsGo p r false cs

/-- Replace each maximal run of characters satisfying `p` by `r`. -/
def subRuns (p : Char → Bool) (r : Char) (l : List Char) : List Char :=
  subRunsGo p r false l

/-- Models `'.'` or `' '`, the characters removed by the final `rstrip(". ")`. -/
def isDotOrSpace (c : Char) : Bool := c = '.' || c = ' '

/-- The list-level body of `utils.sanitize_filename`. -/
def sanitizeList (l : List Char) (max_length : Nat) : List Char :=
  let a := pyStripWS l
  let b := subRuns (fun c => !validChar c) '_' a
  let c := subRuns isSpaceOrUnderscore ' ' b
  let d := c.take max_length
  let e := rstripP isDotOrSpace d
  if e = [] then "video".toList else e

/-- Models `utils.sanitize_filename`. -/
def sanitize_filename (name : String) (max_length : Nat := 180) : String :=
  String.mk (sanitizeList name.toList max_length)

/-! ## `utils.py`: byte / time formatting and `ensure_unique_path` -/

/-- Models `int(math.log(q, 1024))` for `q > 0`, with the exact real logarithm
(float rounding at powers-of-1024 boundaries is abstracted away):
truncation toward zero of `log₁₀₂₄ q`.  For `q ≥ 1` this is
`⌊log₁₀₂₄ q⌋ = Nat.log 1024 ⌊q⌋`; for `0 < q < 1` the logarithm is
negative and truncation toward zero gives
`-⌊log₁₀₂₄ (1/q)⌋ = -(Nat.log 1024 ⌊1/q⌋)`. -/
def pyIntLog1024 (q : ℚ) : Int :=
  if 1 ≤ q then Int.ofNat (Nat.log 1024 (pyTrunc q).toNat)
  else -(Int.ofNat (Nat.log 1024 (pyTrunc q⁻¹).toNat))

/-- Python negative-index list access `units[idx]` (out-of-range access,
impossible here, is mapped to `""`). -/
def pyIndex (l : List String) (i : Int) : String :=
  if 0 ≤ i then l.getD i.toNat ""
  else l.getD (l.length - (-i).toNat) ""

/-- Models `utils.human_readable_bytes` (float argument modelled as `ℚ`; the
`None` guard is handled by callers passing `0`). -/
def human_readable_bytes (num_bytes : ℚ) : String :=
  if num_bytes ≤ 0 then ""
  else
    let units := ["B", "KB", "MB", "GB", "TB"]
    let idx := min (pyIntLog1024 num_bytes) 4
    let value := num_bytes / (1024 : ℚ) ^ idx
    pyFormatF1 value ++ " " ++ pyIndex units idx

/-- Models `utils.human_readable_eta`. -/
def human_readable_eta (seconds : ℚ) : String :=
  if seconds = 0 || seconds < 0 then ""
  else
    let s0 := (pyTrunc seconds).toNat
    let m0 := s0 / 60
    let s := s0 % 60
    let h := m0 / 60
    let m := m0 % 60
    if h ≠ 0 then
      toString h ++ "h " ++ pyFormat02d m ++ "m " ++ pyFormat02d s ++ "s"
    else if m ≠ 0 then
      toString m ++ "m " ++ pyFormat02d s ++ "s"
    else toString s ++ "s"

/-- Models `pathlib` suffix computation on a file name: split at the last dot,
provided it is neither the first nor the last character
(`PurePath.suffix` / `with_suffix("")`). -/
def pySuffixSplit (name : List Char) : List Char × List Char :=
  match name.reverse.findIdx? (fun c => c = '.') with
  | none => (name, [])
  | some j =>
    let i := name.length - 1 - j
    if 0 < i ∧ i < name.length - 1 then (name.take i, name.drop i)
    else (name, [])

/-- The candidate name `f"{base.name} ({counter}){suffix}"` built by
`ensure_unique_path`. -/
def mkCandidate (path : String) (counter : Nat) : String :=
  let p := pySuffixSplit path.toList
  String.mk p.1 ++ " (" ++ toString counter ++ ")" ++ String.mk p.2

/-- The `while True` loop of `ensure_unique_path`, with explicit fuel.
When the fuel runs out the current candidate is returned unchecked (the
theorems only use the function with enough fuel). -/
def uniqueLoop (fs : String → Bool) (path : String) : Nat → Nat → String
  | 0, counter => mkCandidate path counter
  | fuel + 1, counter =>
    let cand := mkCandidate path counter
    if fs cand = false then cand else uniqueLoop fs path fuel (counter + 1)

/-- Models `utils.ensure_unique_path`.  The filesystem (`Path.exists`) is
modelled as the boolean predicate `fs` on path strings; paths here are
file names in a fixed destination directory. -/
def ensure_unique_path (fs : String → Bool) (fuel : Nat) (path : String) :
    String :=
  if fs path = false then path else uniqueLoop fs path fuel 1

/-! ## `models.py` -/

/-- Models `models.QueueStatus`. -/
inductive QueueStatus where
  | PENDING
  | READY
  | DOWNLOADING
  | COMPLETED
  | FAILED
  | CANCELED
deriving DecidableEq, Repr

/-- The string value of each `QueueStatus` member. -/
def QueueStatus.value : QueueStatus → String
  | .PENDING => "Pending"
  | .READY => "Ready"
  | .DOWNLOADING => "Downloading"
  | .COMPLETED => "Completed"
  | .FAILED => "Failed"
  | .CANCELED => "Canceled"

/-- Models `models.FormatOption` (floats as `ℚ`, `Path`s as `String`s). -/
structure FormatOption where
  format_id : String
  ext : String
  resolution : String
  fps : Option Int
  vcodec : Option String
  acodec : Option String
  filesize : Option Int
  format_note : Option String
  tbr : Option ℚ := none
deriving DecidableEq, Repr

/-- Models `models.QueueItem`. -/
structure QueueItem where
  id : Nat
  url : String
  title : String
  selected_format_id : Option String := none
  output_path : Option String := none
  progress_percent : ℚ := 0
  speed_text : String := ""
  eta_text : String := ""
  status : QueueStatus := .PENDING
  error_message : Option String := none
deriving DecidableEq, Repr

/-! ## `downloader.py`: the format sort of `fetch_formats` -/

/-- Models `Downloader.fetch_formats.sort_key`: the 4-tuple
`(height, fps or 0, tbr or 0, filesize or 0)`, where `height` is parsed
from the resolution label with `int(resolution.replace("p", ""))`,
falling back to `0` when the label is empty or unparsable. -/
def sort_key (x : FormatOption) : Int × Int × ℚ × Int :=
  let height : Int :=
    if x.resolution = "" then 0
    else ((pyInt? (x.resolution.toList.filter (fun c => c ≠ 'p'))).getD 0)
  (height, x.fps.getD 0, x.tbr.getD 0, x.filesize.getD 0)

/-- Strict lexicographic order on sort keys (Python tuple `<`). -/
def keyLt (a b : Int × Int × ℚ × Int) : Prop :=
  a.1 < b.1 ∨ (a.1 = b.1 ∧
    (a.2.1 < b.2.1 ∨ (a.2.1 = b.2.1 ∧
      (a.2.2.1 < b.2.2.1 ∨ (a.2.2.1 = b.2.2.1 ∧ a.2.2.2 < b.2.2.2)))))

instance keyLt.decidable (a b : Int × Int × ℚ × Int) :
    Decidable (keyLt a b) := by
  unfold keyLt
  infer_instance

/-- Insert `x` (an element occurring *before* the elements of the second
argument in the original list) into a descending-sorted list, keeping the
sort stable: `x` goes in front of the first element whose key is not
greater than `x`'s. -/
def insertDesc (x : FormatOption) : List FormatOption → List FormatOption
  | [] => [x]
  | y :: ys =>
    if keyLt (sort_key x) (sort_key y) then y :: insertDesc x ys
    else x :: y :: ys

/-- Models `formats.sort(key=sort_key, reverse=True)`: Python's sort is stable,
and with `reverse=True` it orders keys descending while preserving the
original relative order of equal keys; insertion sort with `insertDesc`
realises exactly that specification. -/
def sortFormats : List FormatOption → List FormatOption
  | [] => []
  | x :: xs => insertDesc x (sortFormats xs)

/-! ## `downloader.py`: the progress hook of `download` -/

/-- The shape of a `yt_dlp` progress event dict as read by
`Downloader.download.hook`: a `downloading` event with its (possibly
absent) numeric fields and `_default_template`, a terminal `finished`
event, or any other status. -/
inductive RawEvent where
  | downloading (downloaded_bytes total_bytes total_bytes_estimate speed
      eta : Option ℚ) (template : Option String)
  | finished
  | other
deriving DecidableEq, Repr

/-- Python `a or b` on an optional number (`None` and `0` are falsy). -/
def pyOrQ (a : Option ℚ) (b : ℚ) : ℚ :=
  match a with
  | some x => if x = 0 then b else x
  | none => b

/-- Python `a or b` on an optional string (`None` and `""` are falsy). -/
def pyOrS (a : Option String) (b : String) : String :=
  match a with
  | some x => if x = "" then b else x
  | none => b

/-- Models `Downloader.download.hook`, for the case where a progress callback is
installed (as it always is when the manager dispatches an item): the
argument tuple `(percent, speed, eta, status_text)` passed to the
callback, or `none` when the hook returns without calling it. -/
def Downloader.hook (d : RawEvent) : Option (ℚ × String × String × String) :=
  match d with
  | .downloading downloaded_bytes total_bytes total_bytes_estimate speed
      eta template =>
    let downloaded := pyOrQ downloaded_bytes 0
    let total := pyOrQ total_bytes (pyOrQ total_bytes_estimate 0)
    let speedQ := pyOrQ speed 0
    let etaQ := pyOrQ eta 0
    let percent := if total ≠ 0 then downloaded / total * 100 else 0
    some (percent,
      (if speedQ ≠ 0 then human_readable_bytes speedQ ++ "/s" else ""),
      human_readable_eta etaQ,
      pyOrS template "Downloading")
  | .finished => some (100, "", "", "Processing")
  | .other => none

/-! ## `settings.py`: `AppSettings.load` -/

/-- Models `settings.AppSettings` (paths as strings). -/
structure AppSettings where
  download_dir : String
  max_concurrent_downloads : Int := 2
  cookies_file : Option String := none
deriving DecidableEq, Repr

/-- Models `AppSettings.default_download_dir`, parametrised by the platform's
videos directory (`platformdirs.user_videos_dir`, an external
collaborator).  The helper runs `path.mkdir(parents=True, exist_ok=True)`
before returning the path; that call can raise
(`PermissionError`/`OSError`), so its outcome `mkdir_ok` is an input of
the model and a failure is surfaced as `Except.error`. -/
def AppSettings.default_download_dir (videosDir : String) (mkdir_ok : Bool) :
    Except String String :=
  if mkdir_ok then .ok (videosDir ++ "/FBGrabber") else .error "OSError"

/-- Models `AppSettings.config_path`, parametrised by the platform's config
directory (`platformdirs.user_config_dir`).  Like
`default_download_dir`, it runs `cfg_dir.mkdir(parents=True,
exist_ok=True)` which can raise; `mkdir_ok` is that call's outcome. -/
def AppSettings.config_path (configDir : String) (mkdir_ok : Bool) :
    Except String String :=
  if mkdir_ok then .ok (configDir ++ "/settings.json") else .error "OSError"

/-- The outcome of reading and JSON-parsing the settings file, as seen by
`AppSettings.load`: the file may be missing, reading/`json.loads` may
raise, or parsing succeeds with the three `data.get` results.  The
`max_concurrent` field carries the outcome of the `int(...)` conversion
(`Except.error` when `int` raises); `item_mkdir_ok` is whether the
`download_dir.mkdir(...)` call inside the `try` block succeeds. -/
inductive LoadInput where
  | missing
  | readError
  | parsed (download_dir : Option String) (cookies_file : Option String)
      (max_concurrent : Option (Except String Int)) (item_mkdir_ok : Bool)
deriving Repr

/-- Models `AppSettings.load`.  Exceptions inside the `try` block are caught
and fall through to the default-settings `return` after it, but two calls
run *outside* the `try` and can propagate: `cls.config_path()` at the top
of `load` and the `cls.default_download_dir()` of that final fallback
`return` — each performs a raise-capable `mkdir`, so `load` itself can
raise (returned here as `Except.error`).  Inside the `try`,
`data.get("download_dir", str(cls.default_download_dir()))` evaluates its
default argument eagerly, so a failing `default_download_dir` aborts the
`try` body (caught) and is then re-raised by the fallback `return`.  The
mkdir outcomes `cfg_mkdir_ok`/`dd_mkdir_ok` model a fixed filesystem
environment, identical across the calls of one `load`. -/
def AppSettings.load (videosDir configDir : String)
    (cfg_mkdir_ok dd_mkdir_ok : Bool) (input : LoadInput) :
    Except String AppSettings :=
  match AppSettings.config_path configDir cfg_mkdir_ok with
  | .error e => .error e
  | .ok _ =>
    let fallback : Except String AppSettings :=
      match AppSettings.default_download_dir videosDir dd_mkdir_ok with
      | .error e => .error e
      | .ok d => .ok { download_dir := d }
    match input with
    | .missing => fallback
    | .readError => fallback
    | .parsed dd cf mc item_mkdir_ok =>
      match AppSettings.default_download_dir videosDir dd_mkdir_ok with
      | .error _ => fallback
      | .ok ddefault =>
        let conv : Except String Int :=
          match mc with
          | none => Except.ok 2
          | some r => r
        match conv, item_mkdir_ok with
        | .ok m, true =>
          .ok { download_dir := dd.getD ddefault,
                max_concurrent_downloads := m,
                cookies_file :=
                  match cf with
                  | some s => if s = "" then none else some s
                  | none => none }
        | _, _ => fallback

/-! ## `ui/main_window.py`: the queue table

A table row holds the seven cells created by `MainWindow.add_queue_row`
(title, quality, status text, the progress-bar value and its percent
label, speed, eta, output).  Out-of-range cell access — `table.item(row,
col)` returning `None` followed by an attribute access — raises, which the
embedding surfaces as `Except.error "AttributeError"`. -/
structure Row where
  title : String
  quality : String
  statusText : String
  barValue : Int
  progressLabel : String
  speed : String
  eta : String
  output : String
deriving DecidableEq, Repr

/-- The row created by `MainWindow.add_queue_row` (bar value 0, label
`"0%"`, empty speed/eta/output, status text from the item's status). -/
def MainWindow.newRow (item : QueueItem) (quality_text : String) : Row :=
  { title := item.title, quality := quality_text,
    statusText := item.status.value, barValue := 0, progressLabel := "0%",
    speed := "", eta := "", output := "" }

/-- Models `MainWindow.update_progress_row`: sets the status cell, the progress
bar (`int(percent * 10)`), its label (`f"{percent:.0f}%"`), and the
speed/eta cells.  A stale row index raises (`table.item(row, 2)` is
`None`). -/
def MainWindow.update_progress_row (table : List Row) (row : Nat)
    (percent : ℚ) (speed eta status : String) : Except String (List Row) :=
  match table.get? row with
  | none => .error "AttributeError"
  | some r =>
    .ok (table.set row
      { r with
        statusText := status,
        barValue := pyTrunc (percent * 10),
        progressLabel := pyFormatF0 percent ++ "%",
        speed := speed,
        eta := eta })

/-- Models `MainWindow.mark_row_finished`: status cell `"Completed"`/`"Failed"`,
bar to 1000 on success (unchanged on failure), label `"Done"` on success
(cleared on failure), output cell to the path on success or to the error
message (`error_message or ""`) on failure. -/
def MainWindow.mark_row_finished (table : List Row) (row : Nat)
    (output_path : String) (success : Bool) (error_message : String) :
    Except String (List Row) :=
  match table.get? row with
  | none => .error "AttributeError"
  | some r =>
    .ok (table.set row
      { r with
        statusText := if success then "Completed" else "Failed",
        barValue := if success then 1000 else r.barValue,
        progressLabel := if success then "Done" else "",
        output := if success then output_path else error_message })

/-! ## `main.py`: worker pool and `DownloadManager`

`ThreadPoolExecutor(max_workers=N)` is modelled as a pool with a list of
running tasks (at most `maxWorkers`) and a FIFO list of pending tasks; a
submitted task starts immediately when a worker is free, otherwise it is
queued, and when a running task finishes the head of the queue starts. -/

/-- A dispatched fetch task: the item id it downloads and the row index
captured by the `progress`/`done` closures of
`DownloadManager._start_item` at dispatch time. -/
structure FetchTask where
  itemId : Nat
  capturedRow : Nat
deriving DecidableEq, Repr

/-- The worker pool. -/
structure Exec where
  maxWorkers : Nat
  running : List FetchTask
  pending : List FetchTask
deriving DecidableEq, Repr

/-- Models `executor.submit`. -/
def Exec.submit (ex : Exec) (t : FetchTask) : Exec :=
  if ex.running.length < ex.maxWorkers then
    { ex with running := ex.running ++ [t] }
  else
    { ex with pending := ex.pending ++ [t] }

/-- A running task (at index `i`) finishing: it leaves the pool and the
head of the FIFO queue, if any, starts running. -/
def Exec.finish (ex : Exec) (i : Nat) : Exec :=
  let r := ex.running.eraseIdx i
  match ex.pending with
  | [] => { ex with running := r }
  | q :: qs => { ex with running := r ++ [q], pending := qs }

/-- The state owned by `DownloadManager` (plus the UI table it mutates):
the ordered item list, the id→row mapping (a Python dict keyed by the
unique item ids, modelled as an association list), the id counter, the
table rows, and the worker pool. -/
structure MState where
  items : List QueueItem
  rowFor : List (Nat × Nat)
  nextId : Nat
  table : List Row
  exec : Exec
deriving DecidableEq, Repr

/-- Dict lookup `row_for_item_id.get(item_id)`. -/
def lookupRow (m : List (Nat × Nat)) (id : Nat) : Option Nat :=
  match m.find? (fun p => p.1 = id) with
  | some p => some p.2
  | none => none

/-- The status simplification inside `DownloadManager._start_item.progress`:
`"Downloading"` for a label starting with `download`, `"Processing"` for
one starting with `merge` or `post-process`, `"Downloading"` otherwise. -/
def statusFriendly (status_text : String) : String :=
  let l := pyLower status_text.toList
  if "download".toList.isPrefixOf l then "Downloading"
  else if "merge".toList.isPrefixOf l || "post-process".toList.isPrefixOf l
  then "Processing"
  else "Downloading"

/-- Models `DownloadManager._start_item`: look up the item's row (`KeyError` if
absent), set the item's status to `DOWNLOADING`, paint the row as
`0% / "Queued"`, and submit a task capturing the row index. -/
def DownloadManager.start_item (s : MState) (itemId : Nat) :
    Except String MState :=
  match lookupRow s.rowFor itemId with
  | none => .error "KeyError"
  | some row =>
    let items := s.items.map (fun it =>
      if it.id = itemId then { it with status := .DOWNLOADING } else it)
    match MainWindow.update_progress_row s.table row 0 "" "" "Queued" with
    | .error e => .error e
    | .ok table =>
      .ok { s with
            items := items,
            table := table,
            exec := s.exec.submit ⟨itemId, row⟩ }

/-- Models `DownloadManager.add_to_queue`: allocate the next id, append a
`PENDING` item, materialise a table row, record the id→row mapping, then
start the item. -/
def DownloadManager.add_to_queue (s : MState) (url : String)
    (selected_format_id : Option String) (title quality_text : String) :
    Except String MState :=
  let item : QueueItem :=
    { id := s.nextId, url := url, title := title,
      selected_format_id := selected_format_id, status := .PENDING }
  let row := s.table.length
  let s1 : MState :=
    { s with
      nextId := s.nextId + 1,
      items := s.items ++ [item],
      table := s.table ++ [MainWindow.newRow item quality_text],
      rowFor := s.rowFor ++ [(item.id, row)] }
  DownloadManager.start_item s1 item.id

/-- Models `DownloadManager.remove_item`: no-op for an unknown id; otherwise
remove the table row (later rows shift down), drop the id's mapping entry,
and filter the item out of the list.  The mapping entries of the other
items are *not* renumbered. -/
def DownloadManager.remove_item (s : MState) (itemId : Nat) :
    Except String MState :=
  match lookupRow s.rowFor itemId with
  | none => .ok s
  | some row =>
    .ok { s with
          table := s.table.eraseIdx row,
          rowFor := s.rowFor.filter (fun p => p.1 ≠ itemId),
          items := s.items.filter (fun i => i.id ≠ itemId) }

/-- Models `DownloadManager.retry_item`: no-op for an unknown id or missing row
mapping; otherwise repaint the row as `0% / "Queued"` and start the item
again. -/
def DownloadManager.retry_item (s : MState) (itemId : Nat) :
    Except String MState :=
  if s.items.all (fun i => i.id ≠ itemId) then .ok s
  else
    match lookupRow s.rowFor itemId with
    | none => .ok s
    | some row =>
      match MainWindow.update_progress_row s.table row 0 "" "" "Queued" with
      | .error e => .error e
      | .ok table => DownloadManager.start_item { s with table := table } itemId

/-- The progress update delivered to the presentation layer when the
fetcher reports a raw event for a dispatched task: the tuple the
`progress` closure emits through `signals.progress` to `_on_progress`
(`none` when the hook swallows the event). -/
def deliveredProgress (t : FetchTask) (d : RawEvent) :
    Option (Nat × ℚ × String × String × String) :=
  (Downloader.hook d).map
    (fun a => (t.capturedRow, a.1, a.2.1, a.2.2.1, statusFriendly a.2.2.2))

/-- A raw fetcher progress event for the running task at index `i`:
`hook` → `progress` closure → `signals.progress` → `_on_progress` →
`update_progress_row` on the *captured* row index.  Events for indices
with no running task cannot occur and leave the state unchanged. -/
def DownloadManager.on_task_progress (s : MState) (i : Nat) (d : RawEvent) :
    Except String MState :=
  match s.exec.running.get? i with
  | none => .ok s
  | some t =>
    match deliveredProgress t d with
    | none => .ok s
    | some a =>
      match MainWindow.update_progress_row s.table a.1 a.2.1 a.2.2.1 a.2.2.2.1
          a.2.2.2.2 with
      | .error e => .error e
      | .ok table => .ok { s with table := table }

/-- The task of the running slot `i` finishing with `result` (`Except.ok`
is the final path returned by `Downloader.download`, `Except.error` the
message of the exception it raised): `DownloadManager._start_item.done`
catches every exception, then emits `signals.finished` with the captured
row, which `_on_finished` forwards to `mark_row_finished`.  The `QueueItem`
itself is not touched. -/
def DownloadManager.on_task_done (s : MState) (i : Nat)
    (result : Except String String) : Except String MState :=
  match s.exec.running.get? i with
  | none => .ok s
  | some t =>
    let success : Bool := match result with | .ok _ => true | .error _ => false
    let output_path := match result with | .ok p => p | .error _ => ""
    let error_message := match result with | .ok _ => "" | .error e => e
    match MainWindow.mark_row_finished s.table t.capturedRow output_path
        success error_message with
    | .error e => .error e
    | .ok table => .ok { s with table := table, exec := s.exec.finish i }

/-- The events that drive the manager: user intents (add, retry, remove)
and worker-side callbacks (progress, completion). -/
inductive Event where
  | add (url : String) (selected_format_id : Option String)
      (title quality_text : String)
  | retry (itemId : Nat)
  | remove (itemId : Nat)
  | taskProgress (i : Nat) (d : RawEvent)
  | taskDone (i : Nat) (result : Except String String)

/-- One marshalled event on the manager's single logical control thread. -/
def step (s : MState) : Event → Except String MState
  | .add url fmt title quality => DownloadManager.add_to_queue s url fmt title quality
  | .retry itemId => DownloadManager.retry_item s itemId
  | .remove itemId => DownloadManager.remove_item s itemId
  | .taskProgress i d => DownloadManager.on_task_progress s i d
  | .taskDone i result => DownloadManager.on_task_done s i result

/-- The initial manager state for a configured concurrency limit. -/
def initState (maxWorkers : Nat) : MState :=
  { items := [], rowFor := [], nextId := 1, table := [],
    exec := { maxWorkers := maxWorkers, running := [], pending := [] } }

/-- Run a sequence of events from the initial state. -/
def runTrace (maxWorkers : Nat) (events : List Event) : Except String MState :=
  events.foldlM step (initState maxWorkers)

/-- States reachable from the initial state by successful steps. -/
inductive Reachable (maxWorkers : Nat) : MState → Prop where
  | init : Reachable maxWorkers (initState maxWorkers)
  | step {s s' : MState} {e : Event} (hs : Reachable maxWorkers s)
      (h : step s e = .ok s') : Reachable maxWorkers s'

/-- The sort key reassembled as an element of the lexicographic product
order, for reuse of the order theory of `Prod.Lex`. -/
def lexKey (a : Int × Int × ℚ × Int) : ℤ ×ₗ ℤ ×ₗ ℚ ×ₗ ℤ :=
  toLex (a.1, toLex (a.2.1, toLex (a.2.2.1, a.2.2.2)))

/-- Descending order on sort keys: each element's key is not less than
any later element's key. -/
def SortedDesc (l : List FormatOption) : Prop :=
  List.Pairwise (fun a b => ¬ keyLt (sort_key a) (sort_key b)) l

/-- The invariant of the worker pool: its size limit is the configured
one, at most that many tasks run, and pending tasks exist only while the
pool is saturated. -/
def ExecInv (m : Nat) (ex : Exec) : Prop :=
  ex.maxWorkers = m ∧ ex.running.length ≤ m ∧
    (ex.pending ≠ [] → ex.running.length = m)

/-! ## Theorems -/

/-! ### The format sort (claim C6) -/

theorem keyLt_iff (a b : Int × Int × ℚ × Int) :
    keyLt a b ↔ lexKey a < lexKey b := by
  simp [keyLt, lexKey, Prod.Lex.lt_iff]

theorem keyLt_irrefl (a : Int × Int × ℚ × Int) : ¬ keyLt a a := by
  rw [keyLt_iff]
  exact lt_irrefl _

theorem not_keyLt_trans {a b c : Int × Int × ℚ × Int}
    (h1 : ¬ keyLt a b) (h2 : ¬ keyLt b c) : ¬ keyLt a c := by
  rw [keyLt_iff] at *
  exact not_lt.mpr (le_trans (not_lt.mp h2) (not_lt.mp h1))

theorem keyLt_asymm {a b : Int × Int × ℚ × Int} (h : keyLt a b) :
    ¬ keyLt b a := by
  rw [keyLt_iff] at *
  exact lt_asymm h

theorem mem_insertDesc {x y : FormatOption} {l : List FormatOption} :
    y ∈ insertDesc x l ↔ y = x ∨ y ∈ l := by
  induction l with
  | nil => simp [insertDesc]
  | cons z zs ih =>
    by_cases h : keyLt (sort_key x) (sort_key z)
    · rw [insertDesc, if_pos h]
      simp only [List.mem_cons, ih]
      tauto
    · rw [insertDesc, if_neg h]
      simp only [List.mem_cons]

theorem insertDesc_perm (x : FormatOption) (l : List FormatOption) :
    List.Perm (insertDesc x l) (x :: l) := by
  induction l with
  | nil => rfl
  | cons z zs ih =>
    by_cases h : keyLt (sort_key x) (sort_key z)
    · rw [insertDesc, if_pos h]
      exact (ih.cons z).trans (List.Perm.swap x z zs)
    · rw [insertDesc, if_neg h]

theorem insertDesc_sorted {x : FormatOption} {l : List FormatOption}
    (hl : SortedDesc l) : SortedDesc (insertDesc x l) := by
  induction l with
  | nil => simp [SortedDesc, insertDesc]
  | cons z zs ih =>
    rcases List.pairwise_cons.mp hl with ⟨hz, hzs⟩
    by_cases h : keyLt (sort_key x) (sort_key z)
    · rw [SortedDesc, insertDesc, if_pos h, List.pairwise_cons]
      refine ⟨fun w hw => ?_, ih hzs⟩
      rcases mem_insertDesc.mp hw with rfl | hw
      · exact keyLt_asymm h
      · exact hz w hw
    · rw [SortedDesc, insertDesc, if_neg h, List.pairwise_cons]
      refine ⟨fun w hw => ?_, hl⟩
      rcases List.mem_cons.mp hw with rfl | hw
      · exact h
      · exact not_keyLt_trans h (hz w hw)

theorem sortFormats_perm (l : List FormatOption) :
    List.Perm (sortFormats l) l := by
  induction l with
  | nil => rfl
  | cons x xs ih => exact (insertDesc_perm x (sortFormats xs)).trans (ih.cons x)

theorem sortFormats_sorted (l : List FormatOption) :
    SortedDesc (sortFormats l) := by
  induction l with
  | nil => simp [SortedDesc, sortFormats]
  | cons x xs ih => exact insertDesc_sorted ih

theorem filter_insertDesc (k : Int × Int × ℚ × Int) (x : FormatOption)
    (l : List FormatOption) :
    (insertDesc x l).filter (fun y => decide (sort_key y = k)) =
      (x :: l).filter (fun y => decide (sort_key y = k)) := by
  induction l with
  | nil => rfl
  | cons z zs ih =>
    by_cases h : keyLt (sort_key x) (sort_key z)
    · rw [insertDesc, if_pos h]
      by_cases hx : sort_key x = k
      · by_cases hz : sort_key z = k
        · exact absurd h (hx ▸ hz ▸ keyLt_irrefl k)
        · simp [List.filter_cons, hx, hz, ih]
      · simp [List.filter_cons, hx, ih]
    · rw [insertDesc, if_neg h]

theorem filter_sortFormats (k : Int × Int × ℚ × Int) (l : List FormatOption) :
    (sortFormats l).filter (fun y => decide (sort_key y = k)) =
      l.filter (fun y => decide (sort_key y = k)) := by
  induction l with
  | nil => rfl
  | cons x xs ih =>
    rw [sortFormats, filter_insertDesc, List.filter_cons, List.filter_cons, ih]

/-- C6: `fetch_formats` sorts the variant list by the 4-key descending
lexicographic order of `sort_key` — height parsed from the resolution
label (0 when absent or unparsable), then frame rate, target bitrate and
byte size (0 if absent) — producing a permutation of the catalog list
that is descending on keys, with ties preserving the original catalog
order (equal-key variants appear in their original relative order); in
particular, variants with resolutions 480p, 720p, 1080p, 720p and equal
other fields sort to 1080p, 720p, 720p, 480p with the two 720p entries
(ids "b" then "d") in their original relative order. -/
theorem C6_fetch_formats_sort_policy :
    (∀ l : List FormatOption, List.Perm (sortFormats l) l) ∧
    (∀ l : List FormatOption, SortedDesc (sortFormats l)) ∧
    (∀ (k : Int × Int × ℚ × Int) (l : List FormatOption),
      (sortFormats l).filter (fun y => decide (sort_key y = k)) =
        l.filter (fun y => decide (sort_key y = k))) ∧
    (sortFormats
      [{ format_id := "a", ext := "mp4", resolution := "480p", fps := some 30,
         vcodec := some "h264", acodec := some "aac", filesize := some 10,
         format_note := none },
       { format_id := "b", ext := "mp4", resolution := "720p", fps := some 30,
         vcodec := some "h264", acodec := some "aac", filesize := some 10,
         format_note := none },
       { format_id := "c", ext := "mp4", resolution := "1080p", fps := some 30,
         vcodec := some "h264", acodec := some "aac", filesize := some 10,
         format_note := none },
       { format_id := "d", ext := "mp4", resolution := "720p", fps := some 30,
         vcodec := some "h264", acodec := some "aac", filesize := some 10,
         format_note := none }]).map FormatOption.format_id
      = ["c", "b", "d", "a"] :=
  ⟨sortFormats_perm, sortFormats_sorted, filter_sortFormats, by decide⟩

/-! ### `ensure_unique_path` (claim C9) -/

theorem uniqueLoop_eq_of_first_free {fs : String → Bool} {path : String} :
    ∀ (fuel c n : Nat), c ≤ n → n ≤ c + fuel →
    (∀ m, c ≤ m → m < n → fs (mkCandidate path m) = true) →
    fs (mkCandidate path n) = false →
    uniqueLoop fs path fuel c = mkCandidate path n := by
  intro fuel
  induction fuel with
  | zero =>
    intro c n hcn hnc _ _
    have hc : c = n := by omega
    rw [uniqueLoop, hc]
  | succ fuel ih =>
    intro c n hcn hnc hall hn
    rw [uniqueLoop]
    by_cases hc : fs (mkCandidate path c) = false
    · have hce : c = n := by
        rcases Nat.lt_or_ge c n with h | h
        · rw [hall c le_rfl h] at hc
          exact absurd hc (by simp)
        · omega
      subst hce
      rw [if_pos hc]
    · have hne : c ≠ n := fun e => hc (e ▸ hn)
      simp only [hc, if_false]
      exact ih (c + 1) n (by omega) (by omega)
        (fun m h1 h2 => hall m (by omega) h2) hn

/-- C9: `ensure_unique_path` returns the requested path unchanged when it
does not exist; otherwise it returns the name with `" (n)"` inserted
before the extension for the smallest n ≥ 1 whose candidate does not
exist (within the fuel bound modelling the unbounded `while` loop); in
particular, when `clip.mp4` and `clip (1).mp4` both exist, requesting
`clip.mp4` yields `clip (2).mp4`. -/
theorem C9_ensure_unique_path_least :
    (∀ (fs : String → Bool) (fuel : Nat) (path : String),
      fs path = false → ensure_unique_path fs fuel path = path) ∧
    (∀ (fs : String → Bool) (fuel : Nat) (path : String) (n : Nat),
      fs path = true → 1 ≤ n → n ≤ fuel →
      (∀ m, 1 ≤ m → m < n → fs (mkCandidate path m) = true) →
      fs (mkCandidate path n) = false →
      ensure_unique_path fs fuel path = mkCandidate path n) ∧
    ensure_unique_path (fun s => s = "clip.mp4" || s = "clip (1).mp4") 3
      "clip.mp4" = "clip (2).mp4" := by
  refine ⟨fun fs fuel path h => ?_, fun fs fuel path n hp h1 hf hall hn => ?_,
    by decide⟩
  · rw [ensure_unique_path, if_pos h]
  · rw [ensure_unique_path, if_neg (by simp [hp])]
    exact uniqueLoop_eq_of_first_free fuel 1 n h1 (by omega) hall hn

/-- Witness for C9: concrete instantiation with `clip.mp4` and
`clip (1).mp4` existing, where the smallest free index is 2. -/
theorem C9_ensure_unique_path_least_witness :
    ensure_unique_path (fun s => s = "clip.mp4" || s = "clip (1).mp4") 3
      "clip.mp4" = mkCandidate "clip.mp4" 2 :=
  C9_ensure_unique_path_least.2.1
    (fun s => s = "clip.mp4" || s = "clip (1).mp4") 3 "clip.mp4" 2
    (by decide) (by decide) (by decide)
    (fun m h1 h2 => by
      have hm : m = 1 := by omega
      subst hm
      decide)
    (by decide)

/-! ### `AppSettings.load` (claim C10) -/

/-- C10 counterexample: `AppSettings.load` *can* raise even when the
settings file is merely missing.  Two `mkdir(parents=True,
exist_ok=True)` calls run outside the `try` block — the one inside
`cls.config_path()` invoked at the top of `load`, and the one inside the
`cls.default_download_dir()` of the fallback `return` after the `try` —
and a `PermissionError`/`OSError` from either propagates out of `load`
instead of yielding the default settings. -/
theorem C10_load_can_raise :
    AppSettings.load "Videos" "Config" false true .missing =
      .error "OSError" ∧
    AppSettings.load "Videos" "Config" true false .missing =
      .error "OSError" :=
  ⟨rfl, rfl⟩

/-- C10 (amended): provided the two directory-creating helpers that run
outside the `try` block succeed (the `mkdir` calls of `config_path` and
`default_download_dir`, whose failures `load` propagates), `load` returns
the default settings — the default download directory,
`max_concurrent_downloads = 2`, and no cookies file — whenever the
settings file is missing, or its content fails to parse, or the
`int(...)` conversion of `max_concurrent_downloads` fails, or creating
the configured download directory fails; no exception raised inside the
`try` block ever propagates. -/
theorem C10_load_defaults_when_dir_helpers_succeed :
    ∀ videosDir configDir : String,
      (AppSettings.load videosDir configDir true true .missing =
        .ok { download_dir := videosDir ++ "/FBGrabber",
              max_concurrent_downloads := 2, cookies_file := none }) ∧
      (AppSettings.load videosDir configDir true true .readError =
        .ok { download_dir := videosDir ++ "/FBGrabber",
              max_concurrent_downloads := 2, cookies_file := none }) ∧
      (∀ (dd cf : Option String) (e : String) (mk : Bool),
        AppSettings.load videosDir configDir true true
            (.parsed dd cf (some (.error e)) mk) =
          .ok { download_dir := videosDir ++ "/FBGrabber",
                max_concurrent_downloads := 2, cookies_file := none }) ∧
      (∀ (dd cf : Option String) (mc : Option (Except String Int)),
        AppSettings.load videosDir configDir true true
            (.parsed dd cf mc false) =
          .ok { download_dir := videosDir ++ "/FBGrabber",
                max_concurrent_downloads := 2, cookies_file := none }) := by
  intro videosDir configDir
  refine ⟨rfl, rfl, fun dd cf e mk => ?_, fun dd cf mc => ?_⟩
  · cases mk <;> rfl
  · cases mc with
    | none => rfl
    | some r => cases r <;> rfl

/-! ### `clean_facebook_title` (claim C8) -/

/-- C8: `clean_facebook_title` strips every count-plus-unit substring
(unit among views/reactions/comments/shares/likes, case-insensitive,
optional K/M suffix), collapses doubled separators, trims
leading/trailing separator and whitespace runs, and falls back to the
original title whenever the cleaned result is empty; in particular
`"My Vacation Video · 1.6K views · 39 reactions"` maps to
`"My Vacation Video"`. -/
theorem C8_clean_facebook_title_spec :
    clean_facebook_title "My Vacation Video · 1.6K views · 39 reactions" =
      "My Vacation Video" ∧
    (∀ t : String, t ≠ "" → pyStripWS (cleanedCore t) = [] →
      clean_facebook_title t = t) := by
  refine ⟨by decide, fun t ht h => ?_⟩
  rw [clean_facebook_title, if_neg ht]
  simp only [h, if_pos]

/-- Witness for C8: the all-separator title `"·"` cleans to the empty
string and falls back to the original title. -/
theorem C8_clean_facebook_title_spec_witness :
    ("·" : String) ≠ "" ∧ clean_facebook_title "·" = "·" :=
  ⟨by decide, C8_clean_facebook_title_spec.2 "·" (by decide) (by decide)⟩

/-! ### `sanitize_filename` (claim C7) -/

theorem subRunsGo_eq_self {p : Char → Bool} {r : Char} (b : Bool)
    {l : List Char} (h : ∀ c ∈ l, p c = false) :
    subRunsGo p r b l = l := by
  induction l generalizing b with
  | nil => rfl
  | cons c cs ih =>
    rw [subRunsGo, if_neg (by simp [h c (List.mem_cons_self c cs)])]
    exact congrArg (c :: ·) (ih false (fun d hd => h d (List.mem_cons_of_mem c hd)))

theorem mem_subRunsGo {p : Char → Bool} {r : Char} {b : Bool}
    {l : List Char} {c : Char} (h : c ∈ subRunsGo p r b l) :
    c = r ∨ (c ∈ l ∧ p c = false) := by
  induction l generalizing b with
  | nil => cases h
  | cons d cs ih =>
    by_cases hd : p d = true
    · rw [subRunsGo, if_pos hd] at h
      cases b with
      | true =>
        rcases ih h with h' | ⟨h1, h2⟩
        · exact Or.inl h'
        · exact Or.inr ⟨List.mem_cons_of_mem d h1, h2⟩
      | false =>
        rcases List.mem_cons.mp h with rfl | h'
        · exact Or.inl rfl
        · rcases ih h' with h'' | ⟨h1, h2⟩
          · exact Or.inl h''
          · exact Or.inr ⟨List.mem_cons_of_mem d h1, h2⟩
    · rw [subRunsGo, if_neg hd] at h
      rcases List.mem_cons.mp h with rfl | h'
      · exact Or.inr ⟨List.mem_cons_self c cs, by simpa using hd⟩
      · rcases ih h' with h'' | ⟨h1, h2⟩
        · exact Or.inl h''
        · exact Or.inr ⟨List.mem_cons_of_mem d h1, h2⟩

theorem head_subRunsGo_inRun {p : Char → Bool} {r : Char} {l : List Char}
    {c : Char} {t : List Char} (h : subRunsGo p r true l = c :: t) :
    p c = false := by
  induction l generalizing c t with
  | nil => cases h
  | cons d cs ih =>
    by_cases hd : p d = true
    · rw [subRunsGo, if_pos hd] at h
      exact ih h
    · rw [subRunsGo, if_neg hd] at h
      cases h
      simpa using hd

theorem chain'_subRunsGo (p : Char → Bool) (r : Char)
    (b : Bool) (l : List Char) :
    List.Chain' (fun x y => ¬(p x = true ∧ p y = true)) (subRunsGo p r b l) := by
  induction l generalizing b with
  | nil => simp [subRunsGo]
  | cons d cs ih =>
    by_cases hd : p d = true
    · rw [subRunsGo, if_pos hd]
      cases b with
      | true =>
        rw [if_pos rfl]
        exact ih true
      | false =>
        rw [if_neg (by simp), List.chain'_cons']
        refine ⟨fun y hy => ?_, ih true⟩
        cases hh : subRunsGo p r true cs with
        | nil => rw [hh] at hy; cases hy
        | cons c t =>
          rw [hh] at hy
          simp only [List.head?_cons, Option.mem_def, Option.some.injEq] at hy
          subst hy
          exact fun hc => by rw [head_subRunsGo_inRun hh] at hc; cases hc.2
    · rw [subRunsGo, if_neg hd]
      rw [List.chain'_cons']
      exact ⟨fun y _ => fun hc => hd hc.1, ih false⟩

theorem subRunsGo_inRun_eq_of_head {p : Char → Bool} {r : Char}
    {d : Char} {t : List Char} (hd : p d = false) :
    subRunsGo p r true (d :: t) = subRunsGo p r false (d :: t) := by
  rw [subRunsGo, subRunsGo, if_neg (by simp [hd]), if_neg (by simp [hd])]

theorem subRunsGo_eq_self_of_clean {p : Char → Bool} {r : Char}
    {l : List Char}
    (hall : ∀ c ∈ l, p c = true → c = r)
    (hch : List.Chain' (fun x y => ¬(p x = true ∧ p y = true)) l) :
    subRunsGo p r false l = l := by
  induction l with
  | nil => rfl
  | cons c cs ih =>
    rcases List.chain'_cons'.mp hch with ⟨hhd, hch'⟩
    by_cases hc : p c = true
    · have hcr : c = r := hall c (List.mem_cons_self c cs) hc
      rw [subRunsGo, if_pos hc]
      cases cs with
      | nil => rw [hcr]; rfl
      | cons d t =>
        have hpd : p d = false := by
          have := hhd d (by simp)
          by_contra hx
          exact this ⟨hc, by simpa using hx⟩
        rw [subRunsGo_inRun_eq_of_head hpd, hcr]
        exact congrArg (r :: ·)
          (ih (fun e he hp => hall e (List.mem_cons_of_mem c he) hp) hch')
    · rw [subRunsGo, if_neg hc]
      exact congrArg (c :: ·)
        (ih (fun e he hp => hall e (List.mem_cons_of_mem c he) hp) hch')

theorem rstripP_prefix (p : Char → Bool) (l : List Char) :
    rstripP p l <+: l := by
  induction l with
  | nil => exact List.prefix_refl []
  | cons c cs ih =>
    rw [rstripP]
    cases h : rstripP p cs with
    | nil =>
      by_cases hc : p c = true
      · simp [hc]
      · simp only [hc, if_false]
        exact ⟨cs, rfl⟩
    | cons d t =>
      rw [h] at ih
      rcases ih with ⟨u, hu⟩
      exact ⟨u, by rw [List.cons_append, hu]⟩

theorem rstripP_getLast {p : Char → Bool} {l : List Char} {z : Char}
    (h : (rstripP p l).getLast? = some z) : p z = false := by
  induction l with
  | nil => cases h
  | cons c cs ih =>
    rw [rstripP] at h
    cases hh : rstripP p cs with
    | nil =>
      rw [hh] at h
      by_cases hc : p c = true
      · rw [if_pos hc] at h
        cases h
      · rw [if_neg hc] at h
        cases h
        simpa using hc
    | cons d t =>
      rw [hh, List.getLast?_cons_cons] at h
      rw [hh] at ih
      exact ih h

theorem rstripP_eq_self {p : Char → Bool} {l : List Char}
    (h : ∀ z, l.getLast? = some z → p z = false) : rstripP p l = l := by
  induction l with
  | nil => rfl
  | cons c cs ih =>
    cases cs with
    | nil =>
      have hc : p c = false := h c rfl
      rw [rstripP, rstripP, if_neg (by simp [hc])]
    | cons d t =>
      have hcs : rstripP p (d :: t) = d :: t :=
        ih (fun z hz => h z (by rw [List.getLast?_cons_cons]; exact hz))
      rw [rstripP, hcs]

theorem pyStripWS_eq_self {l : List Char}
    (hh : ∀ z, l.head? = some z → pyIsSpace z = false)
    (hl : ∀ z, l.getLast? = some z → pyIsSpace z = false) :
    pyStripWS l = l := by
  rw [pyStripWS]
  cases l with
  | nil => rfl
  | cons c cs =>
    rw [List.dropWhile_cons_of_neg (by simp [hh c rfl])]
    exact rstripP_eq_self hl

theorem chain'_of_prefix {R : Char → Char → Prop} {l₁ l₂ : List Char}
    (h : l₁ <+: l₂) (hc : List.Chain' R l₂) : List.Chain' R l₁ := by
  rw [List.prefix_iff_eq_take.mp h]
  exact hc.take _

/-- A whitespace character that is also a valid filename character must
be the plain space. -/
theorem validChar_space {z : Char} (hv : validChar z = true)
    (hs : pyIsSpace z = true) : z = ' ' := by
  have h6 : ((((z = ' ' ∨ z = '\t') ∨ z = '\n') ∨ z = '\x0d') ∨ z = '\x0b') ∨
      z = '\x0c' := by
    simpa [pyIsSpace] using hs
  rcases h6 with ((((rfl | rfl) | rfl) | rfl) | rfl) | rfl
  · rfl
  all_goals exact absurd hv (by decide)

theorem mem_of_getLast?_eq {l : List Char} {z : Char}
    (h : l.getLast? = some z) : z ∈ l := by
  have hr : l.reverse.head? = some z := by
    rw [List.head?_reverse]
    exact h
  exact List.mem_reverse.mp
    (List.mem_of_mem_head? (Option.mem_def.mpr hr))

/-- Characters surviving the two substitution passes of
`sanitize_filename` are valid filename characters other than `'_'`. -/
theorem sanitized_chars {b : List Char} {ch : Char}
    (h : ch ∈ subRuns isSpaceOrUnderscore ' '
      (subRuns (fun c => !validChar c) '_' b)) :
    validChar ch = true ∧ ch ≠ '_' := by
  rcases mem_subRunsGo h with rfl | ⟨h1, h2⟩
  · exact ⟨by decide, by decide⟩
  · rcases mem_subRunsGo h1 with rfl | ⟨_, h4⟩
    · exact absurd h2 (by decide)
    · refine ⟨by simpa using h4, fun hx => ?_⟩
      subst hx
      exact absurd h2 (by decide)

/-- The function `sanitize_filename` is the identity on a list of characters that is
nonempty, made of valid non-underscore characters, has no two adjacent
space-or-underscore characters, neither starts with a space nor ends with
a dot or space, and fits the length bound. -/
theorem sanitizeList_eq_self {e : List Char} {m : Nat}
    (hne : e ≠ [])
    (hchars : ∀ ch ∈ e, validChar ch = true ∧ ch ≠ '_')
    (hch : List.Chain' (fun x y => ¬(isSpaceOrUnderscore x = true ∧
      isSpaceOrUnderscore y = true)) e)
    (hlast : ∀ z, e.getLast? = some z → isDotOrSpace z = false)
    (hlen : e.length ≤ m)
    (hhead : e.head? ≠ some ' ') :
    sanitizeList e m = e := by
  have hstrip : pyStripWS e = e := by
    refine pyStripWS_eq_self (fun z hz => ?_) (fun z hz => ?_)
    · by_contra hx
      have hsz : pyIsSpace z = true := by simpa using hx
      have hv := (hchars z (List.mem_of_mem_head? (Option.mem_def.mpr hz))).1
      rw [validChar_space hv hsz] at hz
      exact hhead hz
    · by_contra hx
      have hsz : pyIsSpace z = true := by simpa using hx
      have hv := (hchars z (mem_of_getLast?_eq hz)).1
      have hzs : z = ' ' := validChar_space hv hsz
      have := hlast z hz
      rw [hzs] at this
      exact absurd this (by decide)
  have hsub1 : subRuns (fun c => !validChar c) '_' e = e := by
    rw [subRuns]
    exact subRunsGo_eq_self false (fun c hc => by simpa using (hchars c hc).1)
  have hsub2 : subRuns isSpaceOrUnderscore ' ' e = e := by
    rw [subRuns]
    refine subRunsGo_eq_self_of_clean (fun c hc hp => ?_) hch
    have h2 := (hchars c hc).2
    have : c = ' ' ∨ c = '_' := by simpa [isSpaceOrUnderscore] using hp
    rcases this with rfl | rfl
    · rfl
    · exact absurd rfl h2
  have htake : e.take m = e := List.take_of_length_le hlen
  show (if rstripP isDotOrSpace ((subRuns isSpaceOrUnderscore ' '
      (subRuns (fun c => !validChar c) '_' (pyStripWS e))).take m) = []
    then "video".toList
    else rstripP isDotOrSpace ((subRuns isSpaceOrUnderscore ' '
      (subRuns (fun c => !validChar c) '_' (pyStripWS e))).take m)) = e
  rw [hstrip, hsub1, hsub2, htake, rstripP_eq_self hlast, if_neg hne]

/-- Applying `sanitize_filename` a second time changes nothing, provided
the first application's result does not begin with a space. -/
theorem sanitizeList_fixpoint {l : List Char}
    (h : (sanitizeList l 180).head? ≠ some ' ') :
    sanitizeList (sanitizeList l 180) 180 = sanitizeList l 180 := by
  have hunf : sanitizeList l 180 =
      (if rstripP isDotOrSpace ((subRuns isSpaceOrUnderscore ' '
          (subRuns (fun c => !validChar c) '_' (pyStripWS l))).take 180) = []
       then "video".toList
       else rstripP isDotOrSpace ((subRuns isSpaceOrUnderscore ' '
          (subRuns (fun c => !validChar c) '_' (pyStripWS l))).take 180)) := rfl
  by_cases he : rstripP isDotOrSpace ((subRuns isSpaceOrUnderscore ' '
      (subRuns (fun c => !validChar c) '_' (pyStripWS l))).take 180) = []
  · rw [hunf, if_pos he]
    decide
  · rw [hunf, if_neg he] at h ⊢
    have hpre : rstripP isDotOrSpace ((subRuns isSpaceOrUnderscore ' '
        (subRuns (fun c => !validChar c) '_' (pyStripWS l))).take 180) <+:
        (subRuns isSpaceOrUnderscore ' '
          (subRuns (fun c => !validChar c) '_' (pyStripWS l))).take 180 :=
      rstripP_prefix _ _
    refine sanitizeList_eq_self he (fun ch hc => ?_) ?_
      (fun z hz => rstripP_getLast hz) ?_ h
    · exact sanitized_chars
        (List.take_subset _ _ (hpre.subset hc))
    · exact chain'_of_prefix hpre
        ((chain'_subRunsGo isSpaceOrUnderscore ' ' false _).take 180)
    · exact le_trans hpre.length_le (List.length_take_le _ _)

/-- C7 counterexample: `sanitize_filename` is not idempotent.  On `"!a"`
the first pass turns the invalid `'!'` into `'_'` and then collapses it
to a space, producing `" a"`; a second pass strips that leading space and
returns `"a"`. -/
theorem C7_sanitize_filename_not_idempotent :
    sanitize_filename (sanitize_filename "!a") ≠ sanitize_filename "!a" := by
  decide

/-- C7 (amended): `sanitize_filename` is idempotent on every input whose
sanitized form does not begin with a space character (the only inputs on
which the two applications differ are those where replacing a leading
invalid-character run produces a leading space, which only the second
application strips). -/
theorem C7_sanitize_filename_idempotent_no_leading_space :
    ∀ s : String, (sanitize_filename s).toList.head? ≠ some ' ' →
      sanitize_filename (sanitize_filename s) = sanitize_filename s := by
  intro s hs
  exact congrArg String.mk (sanitizeList_fixpoint hs)

/-- Witness for the amended C7: on `"abc"` the hypothesis holds and the
two applications agree. -/
theorem C7_sanitize_filename_idempotent_no_leading_space_witness :
    (sanitize_filename "abc").toList.head? ≠ some ' ' ∧
      sanitize_filename (sanitize_filename "abc") = sanitize_filename "abc" :=
  ⟨by decide, C7_sanitize_filename_idempotent_no_leading_space "abc" (by decide)⟩

/-! ### The completion path (claims C2 and C5) -/

theorem on_task_done_eq {s : MState} {i : Nat} {t : FetchTask}
    {res : Except String String} {r : Row}
    (hrun : s.exec.running.get? i = some t)
    (hrow : s.table.get? t.capturedRow = some r) :
    DownloadManager.on_task_done s i res = .ok { s with
      table := s.table.set t.capturedRow
        { r with
          statusText := match res with | .ok _ => "Completed" | .error _ => "Failed",
          barValue := match res with | .ok _ => 1000 | .error _ => r.barValue,
          progressLabel := match res with | .ok _ => "Done" | .error _ => "",
          output := match res with | .ok p => p | .error e => e },
      exec := s.exec.finish i } := by
  cases res with
  | ok p =>
    simp only [DownloadManager.on_task_done, hrun, MainWindow.mark_row_finished,
      hrow, if_true, if_false, Bool.true_eq_false]
  | error e =>
    simp only [DownloadManager.on_task_done, hrun, MainWindow.mark_row_finished,
      hrow, if_true, if_false, Bool.false_eq_true]

/-- The full behaviour of the completion callback on a live captured row:
no exception, the row marked with the outcome, all other state frozen. -/
theorem on_task_done_marks_row :
    ∀ (s : MState) (i : Nat) (t : FetchTask) (res : Except String String)
      (r : Row),
      s.exec.running.get? i = some t →
      s.table.get? t.capturedRow = some r →
      ∃ s', DownloadManager.on_task_done s i res = .ok s' ∧
        s'.items = s.items ∧
        (∀ p, res = .ok p →
          s'.table.get? t.capturedRow =
            some { r with statusText := "Completed", barValue := 1000,
                          progressLabel := "Done", output := p }) ∧
        (∀ e, res = .error e →
          s'.table.get? t.capturedRow =
            some { r with statusText := "Failed", progressLabel := "",
                          output := e }) ∧
        (∀ j, j ≠ t.capturedRow → s'.table.get? j = s.table.get? j) := by
  intro s i t res r hrun hrow
  have hlt : t.capturedRow < s.table.length := by
    rcases List.get?_eq_some.mp hrow with ⟨h, _⟩
    exact h
  refine ⟨_, on_task_done_eq hrun hrow, rfl, ?_, ?_, ?_⟩
  · rintro p rfl
    simp only [List.get?_eq_getElem?, List.getElem?_set_self hlt]
  · rintro e rfl
    simp only [List.get?_eq_getElem?, List.getElem?_set_self hlt]
  · intro j hj
    simp only [List.get?_eq_getElem?, List.getElem?_set_ne (Ne.symm hj)]

/-- C2 (amended): when a dispatched item's fetch task finishes, the
completion path never raises and delivers the outcome to the presentation
layer at the captured row — on success the row is marked `Completed` with
the output path (bar 1000, label `Done`), on failure it is marked
`Failed` with the error message in the output cell and the last-known
progress-bar value untouched — while every other row and the `QueueItem`
list itself (in particular each item's status, output path, error message
and progress percentage) are left unchanged. -/
theorem C2_completion_updates_row_not_item :
    ∀ (s : MState) (i : Nat) (t : FetchTask) (res : Except String String)
      (r : Row),
      s.exec.running.get? i = some t →
      s.table.get? t.capturedRow = some r →
      ∃ s', DownloadManager.on_task_done s i res = .ok s' ∧
        s'.items = s.items ∧
        (∀ p, res = .ok p →
          s'.table.get? t.capturedRow =
            some { r with statusText := "Completed", barValue := 1000,
                          progressLabel := "Done", output := p }) ∧
        (∀ e, res = .error e →
          s'.table.get? t.capturedRow =
            some { r with statusText := "Failed", progressLabel := "",
                          output := e }) ∧
        (∀ j, j ≠ t.capturedRow → s'.table.get? j = s.table.get? j) :=
  on_task_done_marks_row

/-- Witness for C2 (amended): a one-item pool with the task's captured
row present, completed successfully. -/
theorem C2_completion_updates_row_not_item_witness :
    (let s : MState :=
      { items := [{ id := 1, url := "u", title := "t",
                    status := .DOWNLOADING }],
        rowFor := [(1, 0)], nextId := 2,
        table := [{ title := "t", quality := "q",
                    statusText := "Downloading", barValue := 0,
                    progressLabel := "0%", speed := "", eta := "",
                    output := "" }],
        exec := { maxWorkers := 2, running := [⟨1, 0⟩], pending := [] } };
     ∃ s', DownloadManager.on_task_done s 0 (.ok "/d/f.mp4") = .ok s' ∧
        s'.items = s.items ∧
        s'.table.get? 0 =
          some { title := "t", quality := "q", statusText := "Completed",
                 barValue := 1000, progressLabel := "Done", speed := "",
                 eta := "", output := "/d/f.mp4" }) := by
  intro s
  obtain ⟨s', h1, h2, h3, _, _⟩ :=
    C2_completion_updates_row_not_item s 0 ⟨1, 0⟩ (.ok "/d/f.mp4")
      { title := "t", quality := "q", statusText := "Downloading",
        barValue := 0, progressLabel := "0%", speed := "", eta := "",
        output := "" } rfl rfl
  exact ⟨s', h1, h2, h3 "/d/f.mp4" rfl⟩

/-- C2 counterexample: after a successful completion the `QueueItem`
itself still has status `DOWNLOADING` and no output path — the claim's
"sets the item's output file path and transitions its status to
COMPLETED" is false on the code, which only updates the presentation
row. -/
theorem C2_item_not_updated_on_completion :
    (runTrace 2 [.add "u1" none "t1" "q1",
      .taskDone 0 (.ok "/d/f.mp4")]).map
      (fun s => s.items.map (fun it => (it.status, it.output_path,
        it.error_message)))
    = .ok [(QueueStatus.DOWNLOADING, none, none)] := by rfl

/-! ### Inversion lemmas for the manager operations -/

theorem start_item_ok {s s' : MState} {itemId : Nat}
    (h : DownloadManager.start_item s itemId = .ok s') :
    ∃ row table,
      lookupRow s.rowFor itemId = some row ∧
      MainWindow.update_progress_row s.table row 0 "" "" "Queued" = .ok table ∧
      s' = { s with
             items := s.items.map (fun it =>
               if it.id = itemId then { it with status := .DOWNLOADING } else it),
             table := table,
             exec := s.exec.submit ⟨itemId, row⟩ } := by
  cases hl : lookupRow s.rowFor itemId with
  | none =>
    simp only [DownloadManager.start_item, hl] at h
    exact Except.noConfusion h
  | some row =>
    cases hu : MainWindow.update_progress_row s.table row 0 "" "" "Queued" with
    | error e =>
      simp only [DownloadManager.start_item, hl, hu] at h
      exact Except.noConfusion h
    | ok table =>
      simp only [DownloadManager.start_item, hl, hu, Except.ok.injEq] at h
      exact ⟨row, table, by simp [hl], hu, h.symm⟩

theorem add_to_queue_ok {s s' : MState} {url : String}
    {fmt : Option String} {title quality : String}
    (h : DownloadManager.add_to_queue s url fmt title quality = .ok s') :
    ∃ row table,
      s' = { s with
             nextId := s.nextId + 1,
             items := (s.items ++
               [({ id := s.nextId, url := url, title := title,
                   selected_format_id := fmt,
                   status := .PENDING } : QueueItem)]).map
               (fun it =>
                 if it.id = s.nextId then { it with status := .DOWNLOADING }
                 else it),
             table := table,
             rowFor := s.rowFor ++ [(s.nextId, s.table.length)],
             exec := s.exec.submit ⟨s.nextId, row⟩ } := by
  rw [DownloadManager.add_to_queue] at h
  obtain ⟨row, table, _, _, hs⟩ := start_item_ok h
  exact ⟨row, table, hs⟩

theorem retry_item_ok {s s' : MState} {itemId : Nat}
    (h : DownloadManager.retry_item s itemId = .ok s') :
    s' = s ∨
    ∃ row table,
      s' = { s with
             items := s.items.map (fun it =>
               if it.id = itemId then { it with status := .DOWNLOADING } else it),
             table := table,
             exec := s.exec.submit ⟨itemId, row⟩ } := by
  by_cases ha : s.items.all (fun i => i.id ≠ itemId) = true
  · rw [DownloadManager.retry_item, if_pos ha] at h
    cases h
    exact Or.inl rfl
  · cases hl : lookupRow s.rowFor itemId with
    | none =>
      rw [DownloadManager.retry_item, if_neg ha] at h
      simp only [hl] at h
      cases h
      exact Or.inl rfl
    | some row =>
      cases hu : MainWindow.update_progress_row s.table row 0 "" "" "Queued" with
      | error e =>
        rw [DownloadManager.retry_item, if_neg ha] at h
        simp only [hl, hu] at h
        exact Except.noConfusion h
      | ok table1 =>
        rw [DownloadManager.retry_item, if_neg ha] at h
        simp only [hl, hu] at h
        obtain ⟨row2, table2, hl2, hu2, hs⟩ := start_item_ok h
        exact Or.inr ⟨row2, table2, hs⟩

theorem remove_item_ok {s s' : MState} {itemId : Nat}
    (h : DownloadManager.remove_item s itemId = .ok s') :
    s' = s ∨
    ∃ row, s' = { s with
      table := s.table.eraseIdx row,
      rowFor := s.rowFor.filter (fun p => p.1 ≠ itemId),
      items := s.items.filter (fun i => i.id ≠ itemId) } := by
  cases hl : lookupRow s.rowFor itemId with
  | none =>
    simp only [DownloadManager.remove_item, hl] at h
    cases h
    exact Or.inl rfl
  | some row =>
    simp only [DownloadManager.remove_item, hl, Except.ok.injEq] at h
    exact Or.inr ⟨row, h.symm⟩

theorem on_task_progress_ok {s s' : MState} {i : Nat} {d : RawEvent}
    (h : DownloadManager.on_task_progress s i d = .ok s') :
    ∃ table, s' = { s with table := table } := by
  cases hr : s.exec.running.get? i with
  | none =>
    simp only [DownloadManager.on_task_progress, hr] at h
    cases h
    exact ⟨s.table, rfl⟩
  | some t =>
    cases hd : deliveredProgress t d with
    | none =>
      simp only [DownloadManager.on_task_progress, hr, hd] at h
      cases h
      exact ⟨s.table, rfl⟩
    | some a =>
      cases hu : MainWindow.update_progress_row s.table a.1 a.2.1 a.2.2.1
          a.2.2.2.1 a.2.2.2.2 with
      | error e =>
        simp only [DownloadManager.on_task_progress, hr, hd, hu] at h
        exact Except.noConfusion h
      | ok table =>
        simp only [DownloadManager.on_task_progress, hr, hd, hu,
          Except.ok.injEq] at h
        exact ⟨table, h.symm⟩

theorem on_task_done_ok {s s' : MState} {i : Nat}
    {res : Except String String}
    (h : DownloadManager.on_task_done s i res = .ok s') :
    s' = s ∨
    (∃ table t, s.exec.running.get? i = some t ∧
      s' = { s with table := table, exec := s.exec.finish i }) := by
  cases hr : s.exec.running.get? i with
  | none =>
    simp only [DownloadManager.on_task_done, hr] at h
    cases h
    exact Or.inl rfl
  | some t =>
    cases res with
    | ok p =>
      cases hm : MainWindow.mark_row_finished s.table t.capturedRow p true ""
          with
      | error e =>
        simp only [DownloadManager.on_task_done, hr, hm] at h
        exact Except.noConfusion h
      | ok table =>
        simp only [DownloadManager.on_task_done, hr, hm, Except.ok.injEq] at h
        exact Or.inr ⟨table, t, rfl, h.symm⟩
    | error e0 =>
      cases hm : MainWindow.mark_row_finished s.table t.capturedRow "" false e0
          with
      | error e =>
        simp only [DownloadManager.on_task_done, hr, hm] at h
        exact Except.noConfusion h
      | ok table =>
        simp only [DownloadManager.on_task_done, hr, hm, Except.ok.injEq] at h
        exact Or.inr ⟨table, t, rfl, h.symm⟩

/-! ### Worker pool bound and FIFO dispatch (claim C3) -/

theorem ExecInv.submit {m : Nat} {ex : Exec} (h : ExecInv m ex)
    (t : FetchTask) : ExecInv m (ex.submit t) := by
  obtain ⟨hm, hle, hpend⟩ := h
  subst hm
  rw [Exec.submit]
  by_cases hlt : ex.running.length < ex.maxWorkers
  · rw [if_pos hlt]
    refine ⟨rfl, ?_, fun hp => ?_⟩
    · show (ex.running ++ [t]).length ≤ ex.maxWorkers
      rw [List.length_append, List.length_singleton]
      omega
    · exact absurd (hpend hp) (Nat.ne_of_lt hlt)
  · rw [if_neg hlt]
    refine ⟨rfl, hle, fun _ => ?_⟩
    show ex.running.length = ex.maxWorkers
    omega

theorem ExecInv.finish {m : Nat} {ex : Exec} (h : ExecInv m ex) {i : Nat}
    (hi : i < ex.running.length) : ExecInv m (ex.finish i) := by
  obtain ⟨hm, hle, hpend⟩ := h
  subst hm
  rw [Exec.finish]
  have herase : (ex.running.eraseIdx i).length = ex.running.length - 1 :=
    List.length_eraseIdx_of_lt hi
  cases hp : ex.pending with
  | nil =>
    refine ⟨rfl, ?_, fun hx => absurd rfl hx⟩
    show (ex.running.eraseIdx i).length ≤ ex.maxWorkers
    omega
  | cons q qs =>
    have hsat : ex.running.length = ex.maxWorkers := hpend (by simp [hp])
    refine ⟨rfl, ?_, fun _ => ?_⟩
    · show (ex.running.eraseIdx i ++ [q]).length ≤ ex.maxWorkers
      rw [List.length_append, List.length_singleton]
      omega
    · show (ex.running.eraseIdx i ++ [q]).length = ex.maxWorkers
      rw [List.length_append, List.length_singleton]
      omega

/-- Every reachable manager state keeps its worker pool within the
configured bound, with pending tasks only while the pool is full. -/
theorem reachable_execInv {m : Nat} {s : MState}
    (h : Reachable m s) : ExecInv m s.exec := by
  induction h with
  | init => exact ⟨rfl, by simp [initState], by simp [initState]⟩
  | step hs hstep ih =>
    rename_i s0 s1 e
    cases e with
    | add url fmt title quality =>
      obtain ⟨row, table, hs1⟩ := add_to_queue_ok hstep
      rw [hs1]
      exact ih.submit _
    | retry itemId =>
      rcases retry_item_ok hstep with rfl | ⟨row, table, hs1⟩
      · exact ih
      · rw [hs1]
        exact ih.submit _
    | remove itemId =>
      rcases remove_item_ok hstep with rfl | ⟨row, hs1⟩
      · exact ih
      · rw [hs1]
        exact ih
    | taskProgress i d =>
      obtain ⟨table, hs1⟩ := on_task_progress_ok hstep
      rw [hs1]
      exact ih
    | taskDone i res =>
      rcases on_task_done_ok hstep with rfl | ⟨table, t, hr, hs1⟩
      · exact ih
      · rw [hs1]
        have hi : i < s0.exec.running.length := by
          rcases List.get?_eq_some.mp hr with ⟨hlt, _⟩
          exact hlt
        exact ih.finish hi

/-! ### Item statuses (claim C5) -/

/-- In every reachable state every queued item is `PENDING` or
`DOWNLOADING`: the manager never assigns any terminal status (in
particular never `CANCELED`) to a `QueueItem`. -/
theorem reachable_item_status {m : Nat} {s : MState}
    (h : Reachable m s) :
    ∀ it ∈ s.items, it.status = .PENDING ∨ it.status = .DOWNLOADING := by
  induction h with
  | init => intro it hit; cases hit
  | step hs hstep ih =>
    rename_i s0 s1 e
    have hmap : ∀ (itemId : Nat) (it : QueueItem),
        (it.status = QueueStatus.PENDING ∨ it.status = QueueStatus.DOWNLOADING) →
        ((if it.id = itemId then { it with status := .DOWNLOADING } else it).status
          = QueueStatus.PENDING ∨
         (if it.id = itemId then { it with status := .DOWNLOADING } else it).status
          = QueueStatus.DOWNLOADING) := by
      intro itemId it hit
      by_cases hid : it.id = itemId
      · rw [if_pos hid]
        exact Or.inr rfl
      · rw [if_neg hid]
        exact hit
    cases e with
    | add url fmt title quality =>
      obtain ⟨row, table, hs1⟩ := add_to_queue_ok hstep
      rw [hs1]
      intro it hit
      simp only [List.mem_map] at hit
      obtain ⟨it0, hit0, rfl⟩ := hit
      rcases List.mem_append.mp hit0 with hmem | hmem
      · exact hmap _ _ (ih it0 hmem)
      · have : it0.status = QueueStatus.PENDING := by
          rw [List.mem_singleton.mp hmem]
        exact hmap _ _ (Or.inl this)
    | retry itemId =>
      rcases retry_item_ok hstep with rfl | ⟨row, table, hs1⟩
      · exact ih
      · rw [hs1]
        intro it hit
        simp only [List.mem_map] at hit
        obtain ⟨it0, hit0, rfl⟩ := hit
        exact hmap _ _ (ih it0 hit0)
    | remove itemId =>
      rcases remove_item_ok hstep with rfl | ⟨row, hs1⟩
      · exact ih
      · rw [hs1]
        intro it hit
        exact ih it (List.mem_of_mem_filter hit)
    | taskProgress i d =>
      obtain ⟨table, hs1⟩ := on_task_progress_ok hstep
      rw [hs1]
      exact ih
    | taskDone i res =>
      rcases on_task_done_ok hstep with rfl | ⟨table, t, hr, hs1⟩
      · exact ih
      · rw [hs1]
        exact ih

/-- Successful traces only reach reachable states. -/
theorem foldlM_reachable {m : Nat} :
    ∀ (evts : List Event) (s0 s : MState), Reachable m s0 →
      List.foldlM step s0 evts = .ok s → Reachable m s := by
  intro evts
  induction evts with
  | nil =>
    intro s0 s h0 h
    cases h
    exact h0
  | cons e es ih =>
    intro s0 s h0 h
    rw [List.foldlM_cons] at h
    cases h1 : step s0 e with
    | error err => rw [h1] at h; exact Except.noConfusion h
    | ok s1 =>
      rw [h1] at h
      exact ih s1 s (h0.step h1) h

theorem runTrace_reachable {m : Nat} {evts : List Event} {s : MState}
    (h : runTrace m evts = .ok s) : Reachable m s :=
  foldlM_reachable evts (initState m) s Reachable.init h

theorem Exec.finish_pending (ex : Exec) (i : Nat) :
    (ex.finish i).pending = ex.pending.tail := by
  cases hp : ex.pending with
  | nil => simp only [Exec.finish, hp, List.tail_nil]
  | cons q qs => simp only [Exec.finish, hp, List.tail_cons]

theorem Exec.finish_running_cons {ex : Exec} (i : Nat) {q : FetchTask}
    {qs : List FetchTask} (hp : ex.pending = q :: qs) :
    (ex.finish i).running = ex.running.eraseIdx i ++ [q] := by
  simp only [Exec.finish, hp]

theorem on_task_done_exec {s s' : MState} {i : Nat} {t : FetchTask}
    {res : Except String String}
    (hrun : s.exec.running.get? i = some t)
    (h : DownloadManager.on_task_done s i res = .ok s') :
    s'.exec = s.exec.finish i := by
  cases res with
  | ok p =>
    cases hm : MainWindow.mark_row_finished s.table t.capturedRow p true ""
        with
    | error e =>
      simp only [DownloadManager.on_task_done, hrun, hm] at h
      exact Except.noConfusion h
    | ok table =>
      simp only [DownloadManager.on_task_done, hrun, hm, Except.ok.injEq] at h
      rw [← h]
  | error e0 =>
    cases hm : MainWindow.mark_row_finished s.table t.capturedRow "" false e0
        with
    | error e =>
      simp only [DownloadManager.on_task_done, hrun, hm] at h
      exact Except.noConfusion h
    | ok table =>
      simp only [DownloadManager.on_task_done, hrun, hm, Except.ok.injEq] at h
      rw [← h]

/-- C3 counterexample: with `max_concurrent_downloads = 2`, five
`add_to_queue` calls in immediate succession leave *all five* items in
`DOWNLOADING` status at once (the status is set synchronously at dispatch
time); only the worker pool itself is bounded (2 running, 3 pending). -/
theorem C3_five_adds_all_downloading :
    (runTrace 2 [.add "u1" none "t1" "q1", .add "u2" none "t2" "q2",
      .add "u3" none "t3" "q3", .add "u4" none "t4" "q4",
      .add "u5" none "t5" "q5"]).map
      (fun s => (s.items.countP (fun i => i.status = .DOWNLOADING),
        s.exec.running.length, s.exec.pending.length))
    = .ok (5, 2, 3) := by rfl

/-- C3 (amended): every added item is marked `DOWNLOADING` immediately
when it is dispatched, but the worker pool executes at most
`max_concurrent_downloads` fetch tasks simultaneously: in every reachable
state at most that many tasks run (and tasks queue only while the pool is
saturated), and when a running task finishes, the head of the FIFO
pending queue — the earliest submitted waiting task — is the one that
starts running. -/
theorem C3_pool_bounded_fifo_start :
    (∀ (m : Nat) (s : MState), Reachable m s →
      s.exec.running.length ≤ m ∧
      (s.exec.pending ≠ [] → s.exec.running.length = m)) ∧
    (∀ (s s' : MState) (i : Nat) (res : Except String String) (t : FetchTask),
      s.exec.running.get? i = some t →
      step s (.taskDone i res) = .ok s' →
      s'.exec.pending = s.exec.pending.tail ∧
      (∀ (q : FetchTask) (qs : List FetchTask), s.exec.pending = q :: qs →
        s'.exec.running = s.exec.running.eraseIdx i ++ [q])) ∧
    (∀ (s s' : MState) (url : String) (fmt : Option String)
      (title quality : String),
      step s (.add url fmt title quality) = .ok s' →
      ∃ pre, s'.items = pre ++
        [{ id := s.nextId, url := url, title := title,
           selected_format_id := fmt, status := .DOWNLOADING }]) := by
  refine ⟨?_, ?_, ?_⟩
  · intro m s h
    obtain ⟨_, h2, h3⟩ := reachable_execInv h
    exact ⟨h2, h3⟩
  · intro s s' i res t hrun hstep
    have hx : s'.exec = s.exec.finish i := on_task_done_exec hrun hstep
    rw [hx]
    exact ⟨Exec.finish_pending s.exec i,
      fun q qs hp => Exec.finish_running_cons i hp⟩
  · intro s s' url fmt title quality hstep
    obtain ⟨row, table, hs1⟩ := add_to_queue_ok hstep
    refine ⟨s.items.map (fun it =>
      if it.id = s.nextId then { it with status := .DOWNLOADING } else it), ?_⟩
    rw [hs1]
    simp

/-- Witness for the amended C3: the state reached by five immediate adds
with a pool of 2 satisfies the bound, and a completion there dequeues in
FIFO order. -/
theorem C3_pool_bounded_fifo_start_witness :
    ∃ s, runTrace 2 [.add "u1" none "t1" "q1", .add "u2" none "t2" "q2",
      .add "u3" none "t3" "q3", .add "u4" none "t4" "q4",
      .add "u5" none "t5" "q5"] = .ok s ∧
      s.exec.running.length ≤ 2 ∧
      (s.exec.pending ≠ [] → s.exec.running.length = 2) := by
  obtain ⟨s, hs⟩ : ∃ s, runTrace 2 [.add "u1" none "t1" "q1",
      .add "u2" none "t2" "q2", .add "u3" none "t3" "q3",
      .add "u4" none "t4" "q4", .add "u5" none "t5" "q5"] = .ok s := ⟨_, rfl⟩
  exact ⟨s, hs,
    C3_pool_bounded_fifo_start.1 2 s (runTrace_reachable hs)⟩

/-- The tuple the `progress` closure emits for a terminal `finished`
fetcher event: the hook reports it as 100% / `"Processing"`, and the
status simplifier then maps the label `"Processing"` (which starts with
neither `download`, `merge` nor `post-process`) back to `"Downloading"`. -/
theorem deliveredProgress_finished (t : FetchTask) :
    deliveredProgress t .finished =
      some (t.capturedRow, 100, "", "", "Downloading") := rfl

/-- C4: the claim says a terminal `finished` fetcher event is delivered
to the presentation layer as 100% with phase label `"Processing"`.  The
hook does emit `(100, "", "", "Processing")`, but
`_start_item.progress`'s label simplifier recognises only
`download`/`merge`/`post-process` prefixes, so `"Processing"` falls into
the default branch and the presentation layer receives `"Downloading"`
instead: the row's status cell is set to `"Downloading"`. -/
theorem C4_finished_event_delivered_as_downloading :
    Downloader.hook .finished = some (100, "", "", "Processing") ∧
    statusFriendly "Processing" = "Downloading" ∧
    (∀ t : FetchTask, deliveredProgress t .finished =
      some (t.capturedRow, 100, "", "", "Downloading")) ∧
    (∀ (s : MState) (i : Nat) (t : FetchTask) (r : Row),
      s.exec.running.get? i = some t →
      s.table.get? t.capturedRow = some r →
      ∃ s', DownloadManager.on_task_progress s i .finished = .ok s' ∧
        (s'.table.get? t.capturedRow).map Row.statusText =
          some "Downloading") := by
  refine ⟨rfl, rfl, deliveredProgress_finished, ?_⟩
  intro s i t r hrun hrow
  have hlt : t.capturedRow < s.table.length := by
    rcases List.get?_eq_some.mp hrow with ⟨h, _⟩
    exact h
  simp only [DownloadManager.on_task_progress, hrun, deliveredProgress_finished,
    MainWindow.update_progress_row, hrow]
  refine ⟨_, rfl, ?_⟩
  simp only [List.get?_eq_getElem?, List.getElem?_set_self hlt]
  rfl

/-- Witness for C4: a one-item pool delivering a `finished` event to a
live row paints that row `"Downloading"`. -/
theorem C4_finished_event_delivered_as_downloading_witness :
    (let s : MState :=
      { items := [{ id := 1, url := "u", title := "t",
                    status := .DOWNLOADING }],
        rowFor := [(1, 0)], nextId := 2,
        table := [{ title := "t", quality := "q",
                    statusText := "Downloading", barValue := 0,
                    progressLabel := "0%", speed := "", eta := "",
                    output := "" }],
        exec := { maxWorkers := 2, running := [⟨1, 0⟩], pending := [] } };
     ∃ s', DownloadManager.on_task_progress s 0 .finished = .ok s' ∧
       (s'.table.get? 0).map Row.statusText = some "Downloading") := by
  intro s
  exact C4_finished_event_delivered_as_downloading.2.2.2 s 0 ⟨1, 0⟩
    { title := "t", quality := "q", statusText := "Downloading",
      barValue := 0, progressLabel := "0%", speed := "", eta := "",
      output := "" } rfl rfl

/-- C5 counterexample: there is no cancel operation, and a worker failing
with a cancellation-style exception is recorded as `Failed` on the
presentation row while the `QueueItem` status stays `DOWNLOADING` — it is
never set to `CANCELED`. -/
theorem C5_canceled_failure_not_marked_canceled :
    (runTrace 2 [.add "u1" none "t1" "q1",
      .taskDone 0 (.error "CancelError: cancelled")]).map
      (fun s => (s.items.map QueueItem.status,
        (s.table.get? 0).map Row.statusText,
        (s.table.get? 0).map Row.output))
    = .ok ([.DOWNLOADING], some "Failed", some "CancelError: cancelled") := by
  rfl

/-- C5 (amended): the orchestrator exposes no cancel operation and no
reachable state ever holds an item with status `CANCELED`; any exception
raised by a dispatched item's transfer (including a cancellation-style
error) is captured by the completion callback — which never propagates an
exception when the captured row is live — and is shown to the
presentation layer as a `Failed` row with the error message in the output
cell, while the `QueueItem` list is untouched. -/
theorem C5_no_canceled_status_errors_captured :
    (∀ (m : Nat) (s : MState), Reachable m s →
      ∀ it ∈ s.items, it.status ≠ .CANCELED) ∧
    (∀ (s : MState) (i : Nat) (t : FetchTask) (e : String) (r : Row),
      s.exec.running.get? i = some t →
      s.table.get? t.capturedRow = some r →
      ∃ s', DownloadManager.on_task_done s i (.error e) = .ok s' ∧
        s'.items = s.items ∧
        s'.table.get? t.capturedRow =
          some { r with statusText := "Failed", progressLabel := "",
                        output := e }) := by
  constructor
  · intro m s h it hit
    rcases reachable_item_status h it hit with hp | hp <;> simp [hp]
  · intro s i t e r hrun hrow
    obtain ⟨s', h1, h2, _, h4, _⟩ :=
      on_task_done_marks_row s i t (.error e) r hrun hrow
    exact ⟨s', h1, h2, h4 e rfl⟩

/-- Witness for the amended C5: no item of the initial state is
`CANCELED`, and a concrete cancellation-style failure on a live row is
captured as a `Failed` row with the message, items untouched. -/
theorem C5_no_canceled_status_errors_captured_witness :
    (∀ it ∈ (initState 2).items, it.status ≠ .CANCELED) ∧
    (let s : MState :=
      { items := [{ id := 1, url := "u", title := "t",
                    status := .DOWNLOADING }],
        rowFor := [(1, 0)], nextId := 2,
        table := [{ title := "t", quality := "q",
                    statusText := "Downloading", barValue := 0,
                    progressLabel := "0%", speed := "", eta := "",
                    output := "" }],
        exec := { maxWorkers := 2, running := [⟨1, 0⟩], pending := [] } };
     ∃ s', DownloadManager.on_task_done s 0
        (.error "CancelError: cancelled") = .ok s' ∧
       s'.items = s.items ∧
       s'.table.get? 0 =
         some { title := "t", quality := "q", statusText := "Failed",
                barValue := 0, progressLabel := "",
                speed := "", eta := "",
                output := "CancelError: cancelled" }) :=
  ⟨C5_no_canceled_status_errors_captured.1 2 (initState 2) Reachable.init,
   C5_no_canceled_status_errors_captured.2 _ 0 ⟨1, 0⟩
     "CancelError: cancelled"
     { title := "t", quality := "q", statusText := "Downloading",
       barValue := 0, progressLabel := "0%", speed := "", eta := "",
       output := "" } rfl rfl⟩

/-- C1: the spec requires that removing an item while its worker is in
flight makes that worker's late callbacks a harmless no-op.  In the code
the `progress`/`done` closures address the row *index* captured at
dispatch time, and `remove_item` shifts the remaining rows down without
renumbering, so the late completion callback of a removed item corrupts
the row now occupied by another item — here item 2's row is painted
`Completed` with item 1's output path while item 2's own task is still
running — and when no row exists at the stale index, the callback raises
(`table.item(row, 2)` is `None` and `.setText` fails). -/
theorem C1_removed_item_late_callback_corrupts :
    ((runTrace 2 [.add "u1" none "t1" "q1", .add "u2" none "t2" "q2",
      .remove 1, .taskDone 0 (.ok "/d/a.mp4")]).map
      (fun s => (s.items.map QueueItem.id,
        s.exec.running.map FetchTask.itemId,
        (s.table.get? 0).map Row.statusText,
        (s.table.get? 0).map Row.output))
    = .ok ([2], [2], some "Completed", some "/d/a.mp4")) ∧
    ((runTrace 2 [.add "u1" none "t1" "q1", .remove 1,
      .taskDone 0 (.ok "/d/a.mp4")]) = .error "AttributeError") :=
  ⟨rfl, rfl⟩
